import Mathlib

/-!
# Verification of the lrthrome server core

Shallow embedding of the lrthrome server (src/server/src): the IPv4 radix
cache (`cache.rs`), the wire codec (`protocol.rs`), the error taxonomy
(`error.rs`) and the dispatcher / peer-task event handling (`lrthrome.rs`).
Machine integers (`u8`, `u32`) are modelled as `Nat` with explicit `% 2 ^ 32`
where the Rust code overflows (the `<< 1` shifts of `Node::insert` /
`Node::_find`).  Byte buffers are `List Nat` (each entry one octet).
-/

namespace Lrthrome

/-! ## The radix tree of `cache.rs`

`Node<T>` from `cache.rs` is a binary trie whose branches are
`Option<Box<Node<T>>>`.  `Node.nil` stands for the absent branch `None`;
`Node.node l r v` stands for a present `Node { left: l, right: r, value: v }`.
-/

inductive Node (α : Type) : Type where
  | nil : Node α
  | node (left : Node α) (right : Node α) (value : Option α) : Node α
deriving DecidableEq, Repr

namespace Node

variable {α : Type}

/-- `left` field access; the absent branch has absent children. -/
def left : Node α → Node α
  | .nil => .nil
  | .node l _ _ => l

/-- `right` field access. -/
def right : Node α → Node α
  | .nil => .nil
  | .node _ r _ => r

/-- `value` field access (`None` on an absent branch). -/
def value : Node α → Option α
  | .nil => none
  | .node _ _ v => v

/-- `Node::new()` from cache.rs: a node with no children and no value. -/
def new : Node α := .node .nil .nil none

/-- `Node::insert` from cache.rs.  `key` and `mask` are 32-bit registers;
`key & 0x8000_0000 == 0` is `key.testBit 31 = false` and `<< 1` is
`(· * 2) % 2 ^ 32`.  The Rust recursion terminates because a 32-bit mask
shifted left 32 times is zero; `fuel` (32 at every call site) counts exactly
those shifts, and the `fuel = 0` branch is unreachable from the call sites.
When the chosen branch is absent (`nil`), the Rust code allocates `Node::new()`
and inserts into it, which is what inserting into `nil` does here, since the
accessors of `nil` agree with those of `Node.new`. -/
def insert (n : Node α) (key mask : Nat) (v : α) (fuel : Nat) : Node α :=
  if mask = 0 then .node n.left n.right (some v)
  else
    match fuel with
    | 0 => n  -- dead branch: a 32-bit mask shifted left 32 times is zero
    | fuel + 1 =>
        if key.testBit 31 then
          .node n.left (n.right.insert ((key * 2) % 2 ^ 32) ((mask * 2) % 2 ^ 32) v fuel) n.value
        else
          .node (n.left.insert ((key * 2) % 2 ^ 32) ((mask * 2) % 2 ^ 32) v fuel) n.right n.value

/-- `Node::_find` from cache.rs.  Walks the trie along the top bits of `key`,
keeping the deepest stored value (`self.value.clone().or(cur_val)`), and stops
when the mask runs out or the branch is absent.  `fuel` as in `insert`. -/
def findAux (fuel : Nat) (n : Node α) (key mask : Nat) (cur : Option α) : Option α :=
  if mask = 0 then n.value.or cur
  else
    match (if key.testBit 31 then n.right else n.left) with
    | .nil => n.value.or cur
    | .node l r v =>
        match fuel with
        | 0 => n.value.or cur  -- dead branch, as in `insert`
        | fuel + 1 =>
            findAux fuel (.node l r v) ((key * 2) % 2 ^ 32) ((mask * 2) % 2 ^ 32) (n.value.or cur)

/-- `Node::find` from cache.rs: `self._find(key, mask, None)`. -/
def find (n : Node α) (key mask : Nat) : Option α :=
  findAux 32 n key mask none

end Node

/-- The netmask of a CIDR of the given length: `len` one-bits followed by
`32 - len` zero-bits (the `u32` of `Ipv4Cidr::mask()`). -/
def maskOfLen (len : Nat) : Nat := 2 ^ 32 - 2 ^ (32 - len)

/-- `PrefixTree::new()` from cache.rs: root is `Node::new()`. -/
def treeNew {α : Type} : Node α := Node.new

/-- `PrefixTree::add_cidr` from cache.rs, with the node value generalised over
`α` as in `Node<T>`: `root.insert(first_address, mask, v)` with fuel 32.
The source instantiates `v = 1u8`; the spec-modelled cache below instantiates
it with the `(first_address, length)` pair. -/
def addCidrVal {α : Type} (t : Node α) (first len : Nat) (v : α) : Node α :=
  t.insert first (maskOfLen len) v 32

/-- `PrefixTree::contains_addr` from cache.rs:
`root.find(addr, 0xffff_ffff).is_some()`. -/
def containsAddr {α : Type} (t : Node α) (addr : Nat) : Bool :=
  (t.find addr 0xffffffff).isSome

/-- A CIDR as the pair (first address as u32, mask length). -/
abbrev Cidr := Nat × Nat

/-- Modelled from the spec: `Cache::longest_match`.  lrthrome.rs calls
`cache.longest_match(request.ip_address)` expecting
`Option<(Ipv4Addr, u32)>`, but that method is not under src/ (src/cache.rs
holds the `u8`-valued tree with `exist`); per spec §4.2 the cache stores
`(first_address, length)` and `longest_match(addr)` returns the covering
entry of greatest length.  Modelled as the very `Node::_find` of cache.rs on
a tree whose node values are the inserted `(first_address, length)` pairs. -/
def longestMatch (t : Node Cidr) (addr : Nat) : Option Cidr :=
  t.find addr 0xffffffff

/-- Modelled from the spec: the cache `insert (first_address, length)`
operation (spec §4.2), i.e. `PrefixTree::add_cidr` storing the
`(first_address, length)` pair as the node value. -/
def cacheInsert (t : Node Cidr) (q : Cidr) : Node Cidr :=
  addCidrVal t q.1 q.2 (q.1, q.2)

/-- The tree obtained by inserting the pairs of `S` in order into a fresh
empty tree. -/
def buildTree (S : List Cidr) : Node Cidr :=
  S.foldl cacheInsert treeNew

/-! ## List-level mirror of the trie

The 32-bit registers of `insert` / `_find` are bridged to explicit bit lists
(most significant bit first); all longest-prefix-match reasoning happens
here. -/

/-- The low `w` bits of `n`, most significant first. -/
def toBits : Nat → Nat → List Bool
  | 0, _ => []
  | w + 1, n => n.testBit w :: toBits w n

/-- List-level `Node::insert`: descend along the given bits, materialising
absent branches, and store the value at the end of the path. -/
def insertB {α : Type} : Node α → List Bool → α → Node α
  | n, [], v => .node n.left n.right (some v)
  | n, b :: bs, v =>
      if b then .node n.left (insertB n.right bs v) n.value
      else .node (insertB n.left bs v) n.right n.value

/-- List-level `Node::_find`: walk along the bits keeping the deepest stored
value, stopping at an absent branch. -/
def findB {α : Type} : Node α → List Bool → Option α → Option α
  | .nil, _, cur => cur
  | .node _ _ v, [], cur => v.or cur
  | .node l r v, b :: bs, cur =>
      match (if b then r else l) with
      | .nil => v.or cur
      | .node l' r' v' => findB (.node l' r' v') bs (v.or cur)

/-- The value stored at the node reached by following the given path
(`none` if the path leaves the materialised tree). -/
def valueAt {α : Type} : Node α → List Bool → Option α
  | n, [] => n.value
  | n, b :: bs => valueAt (if b then n.right else n.left) bs

/-- The deepest value stored along a path: value of the deepest materialised
node on the path, preferring deeper values. -/
def deepVal {α : Type} : Node α → List Bool → Option α
  | .nil, _ => none
  | .node _ _ v, [] => v
  | .node l r v, b :: bs => (deepVal (if b then r else l) bs).or v

/-! ## Errors (`error.rs`) -/

/-- `LrthromeError` from error.rs.  The variants that never reach the wire
path with distinct behaviour (`IoError`, `ReqwestError`, `CsvError`,
`InvalidAddress`, `InvalidInt`, `InvalidCidr`, `ShutdownWatchError`) are
collapsed into `otherError`; all of them take wire code 255. -/
inductive LrthromeError : Type where
  | otherError
  | malformedPayload
  | ratelimited
  | versionMismatch (expected received : Nat)
  | invalidMessageVariant (v : Nat)
deriving DecidableEq, Repr

/-- `LrthromeError::code` from error.rs. -/
def LrthromeError.code : LrthromeError → Nat
  | .malformedPayload => 0
  | .ratelimited => 1
  | .versionMismatch _ _ => 2
  | .invalidMessageVariant _ => 3
  | .otherError => 255

/-- The `thiserror` display string of each error (error.rs attributes).
`otherError` collapses variants whose messages embed the wrapped error; only
the four protocol errors are ever sent to a peer. -/
def LrthromeError.message : LrthromeError → String
  | .malformedPayload => "Malformed payload"
  | .ratelimited => "Exceeded ratelimit"
  | .versionMismatch e r =>
      "Mismatching protocol version, expected " ++ toString e ++ ", received " ++ toString r
  | .invalidMessageVariant v => "Invalid message variant " ++ toString v
  | .otherError => "Other error"

/-- The UTF-8 bytes of an ASCII string, as `Nat` octets. -/
def strBytes (s : String) : List Nat := s.toList.map Char.toNat

/-! ## Wire codec (`protocol.rs`)

Integers are little-endian; strings are NUL-terminated byte runs.  String
payloads are modelled as their byte lists (`List Nat`, no interior zero);
protocol.rs additionally checks UTF-8 validity of those bytes, which is
invisible at the byte level and omitted here. -/

/-- `PROTOCOL_VERSION` from protocol.rs. -/
def protocolVersion : Nat := 1

/-- `Variant` from protocol.rs. -/
inductive Variant : Type where
  | established
  | identify
  | request
  | responseOkFound
  | responseOkNotFound
  | responseError
deriving DecidableEq, Repr

/-- The `u8` discriminant of each variant (protocol.rs `enum Variant`). -/
def Variant.code : Variant → Nat
  | .established => 0
  | .identify => 1
  | .request => 2
  | .responseOkFound => 3
  | .responseOkNotFound => 4
  | .responseError => 5

/-- `Variant::try_from` from protocol.rs. -/
def Variant.ofCode : Nat → Option Variant
  | 0 => some .established
  | 1 => some .identify
  | 2 => some .request
  | 3 => some .responseOkFound
  | 4 => some .responseOkNotFound
  | 5 => some .responseError
  | _ => none

/-- `put_u32_le`: the four octets of a `u32`, least significant first. -/
def le32 (n : Nat) : List Nat :=
  [n % 256, n / 256 % 256, n / 65536 % 256, n / 16777216 % 256]

/-- `nom::le_u32`: read four octets, least significant first. -/
def parseLe32 : List Nat → Option (Nat × List Nat)
  | b0 :: b1 :: b2 :: b3 :: rest =>
      some (b0 + 256 * (b1 + 256 * (b2 + 256 * b3)), rest)
  | _ => none

/-- `parse_cstring` from protocol.rs: `take_while(b != 0)` then `tag([0])`
(fails when no terminator is present). -/
def parseCString : List Nat → Option (List Nat × List Nat)
  | [] => none
  | b :: rest =>
      if b = 0 then some ([], rest)
      else (parseCString rest).map (fun p => (b :: p.1, p.2))

/-- `Header::parse` from protocol.rs: the version byte is checked against
`PROTOCOL_VERSION` first, then the variant byte against the enumeration;
either failure fails the parse. -/
def parseHeader : List Nat → Option (Variant × List Nat)
  | v :: b :: rest => if v = protocolVersion then (Variant.ofCode b).map (·, rest) else none
  | _ => none

/-- `Established` from protocol.rs (banner as bytes). -/
structure EstablishedM : Type where
  rate_limit : Nat
  tree_size : Nat
  cache_ttl : Nat
  peer_ttl : Nat
  banner : List Nat
deriving DecidableEq, Repr

/-- `Established::to_bytes` from protocol.rs. -/
def EstablishedM.toBytes (m : EstablishedM) : List Nat :=
  protocolVersion :: Variant.established.code ::
    (le32 m.rate_limit ++ le32 m.tree_size ++ le32 m.cache_ttl ++ le32 m.peer_ttl
      ++ m.banner ++ [0])

/-- Modelled from the spec: the `Established` decoder (spec §6.1 row 0).
Only the client decodes `Established`; the client is not under src/. -/
def EstablishedM.parse (bs : List Nat) : Option (EstablishedM × List Nat) :=
  (parseLe32 bs).bind fun p1 =>
  (parseLe32 p1.2).bind fun p2 =>
  (parseLe32 p2.2).bind fun p3 =>
  (parseLe32 p3.2).bind fun p4 =>
  (parseCString p4.2).map fun p5 =>
    (⟨p1.1, p2.1, p3.1, p4.1, p5.1⟩, p5.2)

/-- `Identify` from protocol.rs (identification as bytes). -/
structure IdentifyM : Type where
  identification : List Nat
deriving DecidableEq, Repr

/-- `Identify::parse` from protocol.rs. -/
def IdentifyM.parse (bs : List Nat) : Option (IdentifyM × List Nat) :=
  (parseCString bs).map fun p => (⟨p.1⟩, p.2)

/-- Modelled from the spec: the `Identify` encoder (spec §6.1 row 1); only
the client encodes `Identify`, and the client is not under src/. -/
def IdentifyM.toBytes (m : IdentifyM) : List Nat :=
  protocolVersion :: Variant.identify.code :: (m.identification ++ [0])

/-- `Request` from protocol.rs.  The `meta` HashMap is modelled as the
ordered list of key/value byte-string pairs in wire order. -/
structure RequestM : Type where
  ip_address : Nat
  meta_count : Nat
  meta : List (List Nat × List Nat)
deriving DecidableEq, Repr

/-- One `pair(parse_cstring, parse_cstring)` from protocol.rs. -/
def parseMetaPair (bs : List Nat) : Option ((List Nat × List Nat) × List Nat) :=
  (parseCString bs).bind fun pk =>
  (parseCString pk.2).map fun pv => ((pk.1, pv.1), pv.2)

/-- `nom::multi::count` of meta pairs. -/
def parseMetaPairs : Nat → List Nat → Option (List (List Nat × List Nat) × List Nat)
  | 0, bs => some ([], bs)
  | n + 1, bs =>
      (parseMetaPair bs).bind fun pp =>
      (parseMetaPairs n pp.2).map fun ps => (pp.1 :: ps.1, ps.2)

/-- `Request::parse` from protocol.rs: `le_u32` ip (the `u32` is the
`Ipv4Addr`), `le_u8` meta count, then that many key/value cstring pairs. -/
def RequestM.parse (bs : List Nat) : Option (RequestM × List Nat) :=
  (parseLe32 bs).bind fun pip =>
  match pip.2 with
  | [] => none
  | mc :: r2 =>
      (parseMetaPairs mc r2).map fun ps => (⟨pip.1, mc, ps.1⟩, ps.2)

/-- The wire bytes of a meta pair list (key NUL value NUL, in order). -/
def metaBytes : List (List Nat × List Nat) → List Nat
  | [] => []
  | p :: ps => p.1 ++ [0] ++ p.2 ++ [0] ++ metaBytes ps

/-- Modelled from the spec: the `Request` encoder (spec §6.1 row 2); only
the client encodes `Request`, and the client is not under src/. -/
def RequestM.toBytes (m : RequestM) : List Nat :=
  protocolVersion :: Variant.request.code ::
    (le32 m.ip_address ++ m.meta_count :: metaBytes m.meta)

/-- `ResponseOkFound` from protocol.rs.  The source field `prefix` is a Lean
keyword and is called `pfx` here. -/
structure ResponseOkFoundM : Type where
  ip_address : Nat
  pfx : Nat
  mask_len : Nat
deriving DecidableEq, Repr

/-- `ResponseOkFound::to_bytes` from protocol.rs. -/
def ResponseOkFoundM.toBytes (m : ResponseOkFoundM) : List Nat :=
  protocolVersion :: Variant.responseOkFound.code ::
    (le32 m.ip_address ++ le32 m.pfx ++ le32 m.mask_len)

/-- Modelled from the spec: the `ResponseOkFound` decoder (spec §6.1 row 3);
client side, not under src/. -/
def ResponseOkFoundM.parse (bs : List Nat) : Option (ResponseOkFoundM × List Nat) :=
  (parseLe32 bs).bind fun p1 =>
  (parseLe32 p1.2).bind fun p2 =>
  (parseLe32 p2.2).map fun p3 => (⟨p1.1, p2.1, p3.1⟩, p3.2)

/-- `ResponseOkNotFound` from protocol.rs. -/
structure ResponseOkNotFoundM : Type where
  ip_address : Nat
deriving DecidableEq, Repr

/-- `ResponseOkNotFound::to_bytes` from protocol.rs. -/
def ResponseOkNotFoundM.toBytes (m : ResponseOkNotFoundM) : List Nat :=
  protocolVersion :: Variant.responseOkNotFound.code :: le32 m.ip_address

/-- Modelled from the spec: the `ResponseOkNotFound` decoder (spec §6.1 row
4); client side, not under src/. -/
def ResponseOkNotFoundM.parse (bs : List Nat) : Option (ResponseOkNotFoundM × List Nat) :=
  (parseLe32 bs).map fun p => (⟨p.1⟩, p.2)

/-- `ResponseError` from protocol.rs (message as bytes). -/
structure ResponseErrorM : Type where
  code : Nat
  message : List Nat
deriving DecidableEq, Repr

/-- `ResponseError::to_bytes` from protocol.rs. -/
def ResponseErrorM.toBytes (m : ResponseErrorM) : List Nat :=
  protocolVersion :: Variant.responseError.code :: (m.code :: (m.message ++ [0]))

/-- Modelled from the spec: the `ResponseError` decoder (spec §6.1 row 5);
client side, not under src/. -/
def ResponseErrorM.parse (bs : List Nat) : Option (ResponseErrorM × List Nat) :=
  match bs with
  | [] => none
  | c :: rest => (parseCString rest).map fun p => (⟨c, p.1⟩, p.2)

/-- A constructible wire message, one constructor per variant 0–5. -/
inductive Msg : Type where
  | established (m : EstablishedM)
  | identify (m : IdentifyM)
  | request (m : RequestM)
  | responseOkFound (m : ResponseOkFoundM)
  | responseOkNotFound (m : ResponseOkNotFoundM)
  | responseError (m : ResponseErrorM)
deriving DecidableEq, Repr

/-- The encoder of every variant (the `to_bytes` of protocol.rs for the
server-originated variants; the spec-modelled client encoders for
`Identify` and `Request`). -/
def encodeMsg : Msg → List Nat
  | .established m => m.toBytes
  | .identify m => m.toBytes
  | .request m => m.toBytes
  | .responseOkFound m => m.toBytes
  | .responseOkNotFound m => m.toBytes
  | .responseError m => m.toBytes

/-- The decoder of every variant: `Header::parse`, then the body parser of
the parsed variant (protocol.rs parsers for the client-originated variants;
the spec-modelled client decoders for the rest).  Returns the message and
the unconsumed bytes. -/
def decodeMsg (bs : List Nat) : Option (Msg × List Nat) :=
  (parseHeader bs).bind fun ph =>
    match ph.1 with
    | .established => (EstablishedM.parse ph.2).map fun p => (.established p.1, p.2)
    | .identify => (IdentifyM.parse ph.2).map fun p => (.identify p.1, p.2)
    | .request => (RequestM.parse ph.2).map fun p => (.request p.1, p.2)
    | .responseOkFound => (ResponseOkFoundM.parse ph.2).map fun p => (.responseOkFound p.1, p.2)
    | .responseOkNotFound =>
        (ResponseOkNotFoundM.parse ph.2).map fun p => (.responseOkNotFound p.1, p.2)
    | .responseError => (ResponseErrorM.parse ph.2).map fun p => (.responseError p.1, p.2)

/-- A message the Rust code can construct: `u32` fields fit in 32 bits, `u8`
fields in 8, byte strings carry no interior NUL, and `meta_count` is the
number of meta pairs (`Request::parse` produces exactly this shape). -/
def MsgWF : Msg → Prop
  | .established m =>
      m.rate_limit < 2 ^ 32 ∧ m.tree_size < 2 ^ 32 ∧ m.cache_ttl < 2 ^ 32 ∧
      m.peer_ttl < 2 ^ 32 ∧ 0 ∉ m.banner
  | .identify m => 0 ∉ m.identification
  | .request m =>
      m.ip_address < 2 ^ 32 ∧ m.meta_count < 256 ∧ m.meta_count = m.meta.length ∧
      ∀ p ∈ m.meta, 0 ∉ p.1 ∧ 0 ∉ p.2
  | .responseOkFound m => m.ip_address < 2 ^ 32 ∧ m.pfx < 2 ^ 32 ∧ m.mask_len < 2 ^ 32
  | .responseOkNotFound m => m.ip_address < 2 ^ 32
  | .responseError m => m.code < 256 ∧ 0 ∉ m.message

instance : DecidablePred MsgWF := fun m => by
  cases m <;> (unfold MsgWF) <;> infer_instance

/-- The `u32` of the IPv4 address `a.b.c.d` (network order: `a` is the most
significant octet), as in `u32::from(Ipv4Addr)`. -/
def ipv4 (a b c d : Nat) : Nat := ((a * 256 + b) * 256 + c) * 256 + d

/-! ## Cache refresh (`Cache::temper` from cache.rs)

`temper` iterates the registered sources in order; `iterate_cidr().await?`
returns early on the first failing source, and every CIDR of a successful
source is added to `self.tree` — the existing tree, in place.  A source's
outcome is its `iterate_cidr` result: `Except` error or a finite CIDR list.
The mutated tree survives an early error return, so the model returns the
tree together with the optional error. -/

/-- The state of `self.tree` after inserting one source's CIDR list. -/
def insertSource (t : Node Cidr) (cs : List Cidr) : Node Cidr :=
  cs.foldl cacheInsert t

/-- `Cache::temper` from cache.rs over the outcomes of
`source.iterate_cidr()`. -/
def temper (t : Node Cidr) : List (Except LrthromeError (List Cidr)) → Node Cidr × Option LrthromeError
  | [] => (t, none)
  | .error e :: _ => (t, some e)
  | .ok cs :: rest => temper (insertSource t cs) rest

/-! ## Dispatcher (`lrthrome.rs`)

The dispatcher's per-message behaviour from `Lrthrome::up`.  Socket
addresses are `(ip, port)` pairs of `Nat`.  The GCRA rate limiter is
abstracted into a plan of decisions: the `k`-th `check` call returns the
`k`-th entry of `rlPlan` (default allow); `check` is the only operation that
advances `rlCount`, and `ratelimiter.cleanup` (eviction of stale per-IP
entries) does not change any future decision, so it leaves the plan alone.
`Instant::now()` is an explicit `now` parameter. -/

/-- A socket address: (source IP, port). -/
abbrev SockAddr := Nat × Nat

/-- `PeerRegistry` from lrthrome.rs: `tx_shutdown` is modelled by whether a
shutdown has been signalled, `tx_bytes` by the queue of byte buffers sent so
far. -/
structure PeerRegistry : Type where
  last_request : Nat
  shutdownSent : Bool
  outbox : List (List Nat)
deriving DecidableEq, Repr

/-- `Message` from lrthrome.rs (the dispatcher's event queue payloads). -/
inductive Message : Type where
  | cacheTick
  | peerTick
  | peerFrame (addr : SockAddr) (buf : List Nat)
  | peerDisconnected (addr : SockAddr)
deriving DecidableEq, Repr

instance {ε α : Type} [DecidableEq ε] [DecidableEq α] : DecidableEq (Except ε α)
  | .error a, .error b =>
      if h : a = b then .isTrue (by rw [h])
      else .isFalse (by intro hh; cases hh; exact h rfl)
  | .error _, .ok _ => .isFalse (by intro h; cases h)
  | .ok _, .error _ => .isFalse (by intro h; cases h)
  | .ok a, .ok b =>
      if h : a = b then .isTrue (by rw [h])
      else .isFalse (by intro hh; cases hh; exact h rfl)

/-- The dispatcher-owned state of `Lrthrome`: the peers map (association
list keyed by socket address), the rate limiter abstraction, the cache tree
and the registered sources' outcomes. -/
structure ServerSt : Type where
  peers : List (SockAddr × PeerRegistry)
  rlPlan : List Bool
  rlCount : Nat
  tree : Node Cidr
  sources : List (Except LrthromeError (List Cidr))
  peer_ttl : Nat
deriving DecidableEq, Repr

/-- `self.peers.get_mut(&addr)` on the association list. -/
def lookupPeer (ps : List (SockAddr × PeerRegistry)) (addr : SockAddr) : Option PeerRegistry :=
  (ps.find? (fun p => p.1 = addr)).map (·.2)

/-- Replace the entry of `addr` by the given registry value. -/
def setPeer (ps : List (SockAddr × PeerRegistry)) (addr : SockAddr) (pr : PeerRegistry) :
    List (SockAddr × PeerRegistry) :=
  ps.map (fun p => if p.1 = addr then (p.1, pr) else p)

/-- `self.peers.remove(&addr)`. -/
def removePeer (ps : List (SockAddr × PeerRegistry)) (addr : SockAddr) :
    List (SockAddr × PeerRegistry) :=
  ps.filter (fun p => ¬ p.1 = addr)

/-- The next rate-limiter decision (`self.ratelimiter.check(addr.ip())`). -/
def rlAllowed (st : ServerSt) : Bool := st.rlPlan.getD st.rlCount true

/-- `Lrthrome::process_frame` from lrthrome.rs.  Any `Header::parse` failure
— short input, wrong version, invalid variant — is collapsed by
`.map_err(|_| LrthromeError::MalformedPayload)` into `MalformedPayload`,
and likewise any `Request::parse` failure.  For a `Request`, the peer is
looked up first; an unknown peer skips everything (`if let Some(peer)`).
Rate check, `last_request` refresh, cache lookup and response enqueue follow
the source order.  Returns the mutated state and the optional error the Rust
function would return (mutations made before an error persist). -/
def processFrame (now : Nat) (st : ServerSt) (addr : SockAddr) (frame : List Nat) :
    ServerSt × Option LrthromeError :=
  match parseHeader frame with
  | none => (st, some .malformedPayload)
  | some (variant, rest) =>
    match variant with
    | .request =>
      match RequestM.parse rest with
      | none => (st, some .malformedPayload)
      | some (req, _) =>
        match lookupPeer st.peers addr with
        | none => (st, none)
        | some peer =>
          if rlAllowed st then
            let resp :=
              match longestMatch st.tree req.ip_address with
              | some m => ResponseOkFoundM.toBytes ⟨req.ip_address, m.1, m.2⟩
              | none => ResponseOkNotFoundM.toBytes ⟨req.ip_address⟩
            ({ st with
                rlCount := st.rlCount + 1,
                peers := setPeer st.peers addr
                  { peer with last_request := now, outbox := peer.outbox ++ [resp] } },
              none)
          else
            ({ st with rlCount := st.rlCount + 1 }, some .ratelimited)
    | _ => (st, none)

/-- `Lrthrome::peer_error` from lrthrome.rs: encode
`ResponseError { code, message }`, enqueue it, fire the shutdown signal. -/
def peerError (st : ServerSt) (addr : SockAddr) (e : LrthromeError) : ServerSt :=
  match lookupPeer st.peers addr with
  | none => st
  | some peer =>
      { st with
          peers := setPeer st.peers addr
            { peer with
                shutdownSent := true,
                outbox := peer.outbox ++
                  [ResponseErrorM.toBytes ⟨e.code, strBytes e.message⟩] } }

/-- `Lrthrome::sweep_peers` from lrthrome.rs: fire the shutdown signal of
every peer idle longer than `peer_ttl` (`watch::Sender::send` errors, which
only occur when the peer task is already gone, are modelled as absent). -/
def sweepPeers (now : Nat) (st : ServerSt) : ServerSt :=
  { st with
      peers := st.peers.map (fun p =>
        if st.peer_ttl < now - p.2.last_request then (p.1, { p.2 with shutdownSent := true })
        else p) }

/-- One turn of the `Some(message) = self.rx.recv()` arm of the event loop
in `Lrthrome::up`.  A `process_frame` error is caught: when the peer is
still registered it gets `peer_error` plus `cleanup` (identity on the
limiter plan), and the loop continues.  `CacheTick` runs
`self.temper_cache().await?` — the `?` propagates the error out of `up`,
which this model renders as `Except.error` (the loop exits). -/
def dispatch (now : Nat) (st : ServerSt) : Message → Except LrthromeError ServerSt
  | .cacheTick =>
      match temper st.tree st.sources with
      | (t', none) => .ok { st with tree := t' }
      | (_, some e) => .error e
  | .peerTick => .ok (sweepPeers now st)
  | .peerFrame addr buf =>
      match processFrame now st addr buf with
      | (st', none) => .ok st'
      | (st', some e) =>
          .ok (match lookupPeer st'.peers addr with
               | some _ => peerError st' addr e
               | none => st')
  | .peerDisconnected addr => .ok { st with peers := removePeer st.peers addr }

/-- The event loop over a queue of received messages: exits with the error
of the first `dispatch` that propagates one. -/
def loopRun (now : Nat) (st : ServerSt) : List Message → Except LrthromeError ServerSt
  | [] => .ok st
  | m :: ms =>
      match dispatch now st m with
      | .ok st' => loopRun now st' ms
      | .error e => .error e

/-! ## Peer task (`Lrthrome::process_peer` from lrthrome.rs)

The task is a `select!` loop over three sources; a run of the task is the
sequence of select outcomes it observes.  `outboundRecv ok` is
`Some(bytes) = rx_bytes.recv()` together with whether `frame.send` succeeded;
`inboundFrame` is `frame.next() = Some(Ok(buf))`; `inboundError` is
`Some(Err(_))`; `inboundEnd` is `None`; `shutdownFired` is
`rx_shutdown.changed()` returning. -/

/-- One select outcome observed by the peer task. -/
inductive PeerEvent : Type where
  | shutdownFired
  | outboundRecv (sendOk : Bool)
  | inboundFrame (buf : List Nat)
  | inboundError
  | inboundEnd
deriving DecidableEq, Repr

/-- A message the peer task sends to the dispatcher. -/
inductive PeerMsg : Type where
  | frameMsg (buf : List Nat)
  | disconnectedMsg
deriving DecidableEq, Repr

/-- The select outcomes on which the loop `break`s. -/
def isExitEvent : PeerEvent → Bool
  | .shutdownFired => true
  | .inboundError => true
  | .inboundEnd => true
  | .outboundRecv _ => false
  | .inboundFrame _ => false

/-- The peer task of `process_peer` run over a sequence of select outcomes:
the dispatcher-bound messages it sends, and whether it has exited.  A failed
`frame.send` is only logged (`error!`) — the loop continues.  After the loop
breaks, `PeerDisconnected` is sent once and the task exits. -/
def peerRun : List PeerEvent → List PeerMsg × Bool
  | [] => ([], false)
  | e :: rest =>
      match e with
      | .shutdownFired => ([.disconnectedMsg], true)
      | .inboundError => ([.disconnectedMsg], true)
      | .inboundEnd => ([.disconnectedMsg], true)
      | .outboundRecv _ => peerRun rest
      | .inboundFrame buf => ((.frameMsg buf) :: (peerRun rest).1, (peerRun rest).2)

/-! ## Spec-side notions for the claims -/

/-- The CIDR `q` (first address, mask length) contains the address `a`:
`a` lies in the block of `2 ^ (32 - len)` addresses starting at the first
address. -/
def covers (q : Cidr) (a : Nat) : Prop :=
  q.1 ≤ a ∧ a < q.1 + 2 ^ (32 - q.2)

instance : ∀ q a, Decidable (covers q a) := fun _ _ => by unfold covers; infer_instance

/-- A well-formed CIDR pair as `Ipv4Cidr` produces it: a 32-bit first
address, a length of at most 32, and host bits all zero (`first_address` is
the network address). -/
def NormalCidr (q : Cidr) : Prop :=
  q.1 < 2 ^ 32 ∧ q.2 ≤ 32 ∧ q.1 % 2 ^ (32 - q.2) = 0

instance : ∀ q, Decidable (NormalCidr q) := fun _ => by unfold NormalCidr; infer_instance

/-- The trie path of a CIDR: the top `len` bits of its first address. -/
def pathOfC (q : Cidr) : List Bool := (toBits 32 q.1).take q.2

/-- Folding a list of (path, value) insertions into a tree. -/
def foldIns {α : Type} (t : Node α) (ps : List (List Bool × α)) : Node α :=
  ps.foldl (fun n p => insertB n p.1 p.2) t

/-! # Lemmas and claim theorems -/

/-! ## Bits of 32-bit registers -/

theorem toBits_length (w n : Nat) : (toBits w n).length = w := by
  induction w generalizing n with
  | zero => rfl
  | succ w ih => simp [toBits, ih]

theorem testBit_mul_two_mod (k i : Nat) (hi : i < 32) :
    ((k * 2) % 2 ^ 32).testBit i = (decide (1 ≤ i) && k.testBit (i - 1)) := by
  have h2 : k * 2 = k <<< 1 := by rw [Nat.shiftLeft_eq, pow_one]
  rw [Nat.testBit_mod_two_pow, h2, Nat.testBit_shiftLeft]
  simp [hi]

theorem toBits_shl (w : Nat) (hw : w + 1 ≤ 32) (k : Nat) :
    toBits (w + 1) ((k * 2) % 2 ^ 32) = toBits w k ++ [false] := by
  induction w with
  | zero =>
      simp only [toBits, List.nil_append]
      rw [testBit_mul_two_mod k 0 (by omega)]
      simp
  | succ w ih =>
      have hw' : w + 1 ≤ 32 := by omega
      simp only [toBits]
      rw [testBit_mul_two_mod k (w + 1) (by omega)]
      have hh : toBits (w + 1) ((k * 2) % 2 ^ 32) = toBits w k ++ [false] := ih hw'
      simp only [toBits] at hh
      rw [hh]
      simp

theorem take_toBits (k : Nat) : ∀ (w n : Nat), k ≤ w →
    (toBits w n).take k = toBits k (n / 2 ^ (w - k)) := by
  induction k with
  | zero => intro w n _; rfl
  | succ k ih =>
      intro w n hk
      obtain ⟨w', rfl⟩ : ∃ w', w = w' + 1 := ⟨w - 1, by omega⟩
      have hk' : k ≤ w' := by omega
      simp only [toBits, List.take_succ_cons]
      rw [ih w' n hk']
      have hsub : w' + 1 - (k + 1) = w' - k := by omega
      rw [hsub]
      have hbit : (n / 2 ^ (w' - k)).testBit k = n.testBit w' := by
        rw [← Nat.shiftRight_eq_div_pow, Nat.testBit_shiftRight]
        congr 1
        omega
      rw [hbit]

theorem toBits_testBit_eq (w a b : Nat) (h : toBits w a = toBits w b) :
    ∀ i, i < w → a.testBit i = b.testBit i := by
  induction w with
  | zero => intro i hi; omega
  | succ w ih =>
      intro i hi
      simp only [toBits, List.cons.injEq] at h
      rcases Nat.lt_succ_iff_lt_or_eq.mp hi with hlt | rfl
      · exact ih h.2 i hlt
      · exact h.1

theorem toBits_inj (w a b : Nat) (ha : a < 2 ^ w) (hb : b < 2 ^ w)
    (h : toBits w a = toBits w b) : a = b := by
  refine Nat.eq_of_testBit_eq fun i => ?_
  by_cases hi : i < w
  · exact toBits_testBit_eq w a b h i hi
  · have hw : (2 : Nat) ^ w ≤ 2 ^ i := Nat.pow_le_pow_right (by norm_num) (by omega)
    rw [Nat.testBit_lt_two_pow (by omega), Nat.testBit_lt_two_pow (by omega)]

/-! ## Netmask arithmetic -/

theorem maskOfLen_zero : maskOfLen 0 = 0 := by simp [maskOfLen]

theorem maskOfLen_ne_zero (L : Nat) (h1 : 1 ≤ L) (h2 : L ≤ 32) : maskOfLen L ≠ 0 := by
  have : (2 : Nat) ^ (32 - L) < 2 ^ 32 := Nat.pow_lt_pow_right (by norm_num) (by omega)
  unfold maskOfLen
  omega

theorem maskOfLen_shl (L : Nat) (h1 : 1 ≤ L) (h2 : L ≤ 32) :
    (maskOfLen L * 2) % 2 ^ 32 = maskOfLen (L - 1) := by
  unfold maskOfLen
  have h2k : (2 : Nat) ^ (32 - L) * 2 = 2 ^ (32 - (L - 1)) := by
    rw [← pow_succ]
    congr 1
    omega
  have hle : (2 : Nat) ^ (32 - (L - 1)) ≤ 2 ^ 32 := Nat.pow_le_pow_right (by norm_num) (by omega)
  have hpos : 0 < (2 : Nat) ^ (32 - (L - 1)) := Nat.pos_pow_of_pos _ (by norm_num)
  have harg : (2 ^ 32 - 2 ^ (32 - L)) * 2 = 2 ^ 32 + (2 ^ 32 - 2 ^ (32 - (L - 1))) := by
    omega
  rw [harg, Nat.add_mod_left, Nat.mod_eq_of_lt (by omega)]

theorem maskOfLen_32 : (0xffffffff : Nat) = maskOfLen 32 := by decide

/-! ## Bridging the register trie to the bit-list trie -/

@[simp] theorem Node.left_node {α : Type} (l r : Node α) (v : Option α) :
    (Node.node l r v).left = l := rfl

@[simp] theorem Node.right_node {α : Type} (l r : Node α) (v : Option α) :
    (Node.node l r v).right = r := rfl

@[simp] theorem Node.value_node {α : Type} (l r : Node α) (v : Option α) :
    (Node.node l r v).value = v := rfl

theorem toBits_32_succ (n : Nat) : toBits 32 n = n.testBit 31 :: toBits 31 n := rfl

theorem insert_toBits {α : Type} (L : Nat) (hL : L ≤ 32) :
    ∀ (fuel : Nat), L ≤ fuel → ∀ (n : Node α) (key : Nat) (v : α),
      n.insert key (maskOfLen L) v fuel = insertB n ((toBits 32 key).take L) v := by
  induction L with
  | zero =>
      intro fuel _ n key v
      rw [maskOfLen_zero, Node.insert.eq_def]
      simp [insertB]
  | succ L ih =>
      intro fuel hfuel n key v
      obtain ⟨f, rfl⟩ : ∃ f, fuel = f + 1 := ⟨fuel - 1, by omega⟩
      have hm0 : maskOfLen (L + 1) ≠ 0 := maskOfLen_ne_zero _ (by omega) (by omega)
      have hshift : (maskOfLen (L + 1) * 2) % 2 ^ 32 = maskOfLen L := by
        have := maskOfLen_shl (L + 1) (by omega) (by omega)
        simpa using this
      have hpath : (toBits 32 ((key * 2) % 2 ^ 32)).take L = (toBits 31 key).take L := by
        rw [toBits_shl 31 (by omega) key]
        exact List.take_append_of_le_length (by rw [toBits_length]; omega)
      rw [Node.insert]
      rw [if_neg hm0]
      simp only [hshift]
      rw [toBits_32_succ, List.take_succ_cons]
      cases hb : key.testBit 31 with
      | false =>
          simp only [Bool.false_eq_true, if_false, insertB]
          rw [ih (by omega) f (by omega) n.left ((key * 2) % 2 ^ 32) v, hpath]
      | true =>
          simp only [if_true, insertB]
          rw [ih (by omega) f (by omega) n.right ((key * 2) % 2 ^ 32) v, hpath]

theorem findAux_succ_nil {α : Type} (f : Nat) (n : Node α) (key m : Nat) (cur : Option α)
    (hm : m ≠ 0) (hc : (if key.testBit 31 then n.right else n.left) = Node.nil) :
    Node.findAux (f + 1) n key m cur = n.value.or cur := by
  rw [Node.findAux, if_neg hm, hc]

theorem findAux_succ_node {α : Type} (f : Nat) (n : Node α) (key m : Nat) (cur : Option α)
    (l r : Node α) (v : Option α) (hm : m ≠ 0)
    (hc : (if key.testBit 31 then n.right else n.left) = Node.node l r v) :
    Node.findAux (f + 1) n key m cur
      = Node.findAux f (.node l r v) ((key * 2) % 2 ^ 32) ((m * 2) % 2 ^ 32)
          (n.value.or cur) := by
  rw [Node.findAux, if_neg hm, hc]

theorem find_toBits {α : Type} (L : Nat) (hL : L ≤ 32) :
    ∀ (fuel : Nat), L ≤ fuel → ∀ (n : Node α) (key : Nat) (cur : Option α),
      Node.findAux fuel n key (maskOfLen L) cur = findB n ((toBits 32 key).take L) cur := by
  induction L with
  | zero =>
      intro fuel _ n key cur
      rw [maskOfLen_zero]
      cases n <;> simp [Node.findAux, findB, Node.value]
  | succ L ih =>
      intro fuel hfuel n key cur
      obtain ⟨f, rfl⟩ : ∃ f, fuel = f + 1 := ⟨fuel - 1, by omega⟩
      have hm0 : maskOfLen (L + 1) ≠ 0 := maskOfLen_ne_zero _ (by omega) (by omega)
      have hshift : (maskOfLen (L + 1) * 2) % 2 ^ 32 = maskOfLen L := by
        have := maskOfLen_shl (L + 1) (by omega) (by omega)
        simpa using this
      have hpath : (toBits 32 ((key * 2) % 2 ^ 32)).take L = (toBits 31 key).take L := by
        rw [toBits_shl 31 (by omega) key]
        exact List.take_append_of_le_length (by rw [toBits_length]; omega)
      rw [toBits_32_succ, List.take_succ_cons]
      cases n with
      | nil =>
          have hc : (if key.testBit 31 then (Node.nil : Node α).right else Node.nil.left)
              = (Node.nil : Node α) := by cases key.testBit 31 <;> rfl
          rw [findAux_succ_nil f _ key _ cur hm0 hc]
          cases key.testBit 31 <;> rfl
      | node l r v =>
          cases hb : key.testBit 31 with
          | false =>
              cases l with
              | nil =>
                  rw [findAux_succ_nil f _ key _ cur hm0 (by rw [hb]; rfl)]
                  rfl
              | node l' r' v' =>
                  rw [findAux_succ_node f _ key _ cur l' r' v' hm0 (by rw [hb]; rfl), hshift,
                    ih (by omega) f (by omega), hpath]
                  rfl
          | true =>
              cases r with
              | nil =>
                  rw [findAux_succ_nil f _ key _ cur hm0 (by rw [hb]; rfl)]
                  rfl
              | node l' r' v' =>
                  rw [findAux_succ_node f _ key _ cur l' r' v' hm0 (by rw [hb]; rfl), hshift,
                    ih (by omega) f (by omega), hpath]
                  rfl

/-! ## The bit-list trie: stored values and lookup -/

theorem valueAt_nil {α : Type} (bs : List Bool) : valueAt (Node.nil : Node α) bs = none := by
  induction bs with
  | nil => rfl
  | cons b bs ih => cases b <;> simpa [valueAt] using ih

theorem valueAt_insertB_self {α : Type} (bs : List Bool) :
    ∀ (n : Node α) (v : α), valueAt (insertB n bs v) bs = some v := by
  induction bs with
  | nil => intro n v; rfl
  | cons b bs ih =>
      intro n v
      cases b <;> simpa [insertB, valueAt] using ih _ v

theorem valueAt_insertB_other {α : Type} (bs : List Bool) :
    ∀ (bs' : List Bool), bs' ≠ bs → ∀ (n : Node α) (v : α),
      valueAt (insertB n bs v) bs' = valueAt n bs' := by
  induction bs with
  | nil =>
      intro bs' hne n v
      cases bs' with
      | nil => exact absurd rfl hne
      | cons b' t' => cases b' <;> simp [insertB, valueAt, Node.left, Node.right]
  | cons b bs ih =>
      intro bs' hne n v
      cases bs' with
      | nil => cases b <;> simp [insertB, valueAt]
      | cons b' t' =>
          cases b <;> cases b' <;> simp_all [insertB, valueAt]

theorem findB_eq_deepVal {α : Type} (bs : List Bool) :
    ∀ (n : Node α) (cur : Option α), findB n bs cur = (deepVal n bs).or cur := by
  induction bs with
  | nil =>
      intro n cur
      cases n <;> simp [findB, deepVal]
  | cons b bs ih =>
      intro n cur
      cases n with
      | nil => simp [findB, deepVal]
      | node l r v =>
          cases b with
          | false =>
              cases l with
              | nil => simp [findB, deepVal, valueAt_nil]
              | node l' r' v' => simp [findB, deepVal, ih, Option.or_assoc]
          | true =>
              cases r with
              | nil => simp [findB, deepVal, valueAt_nil]
              | node l' r' v' => simp [findB, deepVal, ih, Option.or_assoc]

theorem deepVal_eq_none {α : Type} (bs : List Bool) :
    ∀ (n : Node α), deepVal n bs = none →
      ∀ j, j ≤ bs.length → valueAt n (bs.take j) = none := by
  induction bs with
  | nil =>
      intro n h j hj
      have hj0 : j = 0 := by simpa using hj
      subst hj0
      cases n with
      | nil => exact valueAt_nil []
      | node l r v => simpa [deepVal] using h
  | cons b bs ih =>
      intro n h j hj
      cases n with
      | nil => exact valueAt_nil _
      | node l r v =>
          have hor := h
          simp only [deepVal] at hor
          have hchild : deepVal (if b then r else l) bs = none := by
            cases hdc : deepVal (if b then r else l) bs with
            | none => rfl
            | some w => rw [hdc] at hor; simp [Option.or] at hor
          have hv : v = none := by
            rw [hchild] at hor; simpa [Option.or] using hor
          cases j with
          | zero => simpa [valueAt] using hv
          | succ j =>
              simp only [List.take_succ_cons, valueAt]
              exact ih _ hchild j (by simpa using hj)

theorem deepVal_eq_some {α : Type} (bs : List Bool) :
    ∀ (n : Node α) (v : α), deepVal n bs = some v →
      ∃ j, j ≤ bs.length ∧ valueAt n (bs.take j) = some v ∧
        ∀ j', j < j' → j' ≤ bs.length → valueAt n (bs.take j') = none := by
  induction bs with
  | nil =>
      intro n v h
      cases n with
      | nil => simp [deepVal] at h
      | node l r w =>
          refine ⟨0, by simp, by simpa [valueAt, deepVal] using h, ?_⟩
          intro j' hj1 hj2
          simp only [List.length_nil, Nat.le_zero] at hj2
          subst hj2
          exact absurd hj1 (by omega)
  | cons b bs ih =>
      intro n v h
      cases n with
      | nil => simp [deepVal] at h
      | node l r w =>
          simp only [deepVal] at h
          cases hdc : deepVal (if b then r else l) bs with
          | some u =>
              rw [hdc] at h
              simp only [Option.or] at h
              obtain rfl : u = v := by injection h
              obtain ⟨j, hj, hval, hmax⟩ := ih _ _ hdc
              refine ⟨j + 1, by simpa using hj, by simpa [List.take_succ_cons, valueAt] using hval, ?_⟩
              intro j' h1 h2
              obtain ⟨j'', rfl⟩ : ∃ j'', j' = j'' + 1 := ⟨j' - 1, by omega⟩
              simp only [List.take_succ_cons, valueAt]
              exact hmax j'' (by omega) (by simpa using h2)
          | none =>
              rw [hdc] at h
              simp only [Option.or] at h
              refine ⟨0, by simp, by simpa [valueAt] using h, ?_⟩
              intro j' h1 h2
              obtain ⟨j'', rfl⟩ : ∃ j'', j' = j'' + 1 := ⟨j' - 1, by omega⟩
              simp only [List.take_succ_cons, valueAt]
              exact deepVal_eq_none bs _ hdc j'' (by simpa using h2)

/-! ## Folded insertions -/

theorem foldIns_cons {α : Type} (t : Node α) (p : List Bool × α) (ps : List (List Bool × α)) :
    foldIns t (p :: ps) = foldIns (insertB t p.1 p.2) ps := rfl

theorem valueAt_foldIns_of_some {α : Type} (ps : List (List Bool × α)) :
    ∀ (t : Node α) (π : List Bool) (v : α), valueAt (foldIns t ps) π = some v →
      (∃ p ∈ ps, p.1 = π ∧ p.2 = v) ∨ valueAt t π = some v := by
  induction ps with
  | nil => intro t π v h; exact .inr h
  | cons p ps ih =>
      intro t π v h
      rw [foldIns_cons] at h
      rcases ih _ _ _ h with hex | hval
      · obtain ⟨p', hp', h1, h2⟩ := hex
        exact .inl ⟨p', List.mem_cons_of_mem _ hp', h1, h2⟩
      · by_cases hπ : π = p.1
        · subst hπ
          rw [valueAt_insertB_self] at hval
          exact .inl ⟨p, List.mem_cons_self _ _, rfl, by injection hval⟩
        · rw [valueAt_insertB_other _ _ hπ] at hval
          exact .inr hval

theorem valueAt_foldIns_no_path {α : Type} (ps : List (List Bool × α)) :
    ∀ (t : Node α) (π : List Bool), (∀ p ∈ ps, p.1 ≠ π) →
      valueAt (foldIns t ps) π = valueAt t π := by
  induction ps with
  | nil => intro t π _; rfl
  | cons p ps ih =>
      intro t π h
      rw [foldIns_cons, ih _ _ (fun p' hp' => h p' (List.mem_cons_of_mem _ hp')),
        valueAt_insertB_other _ _ (fun he => h p (List.mem_cons_self _ _) (by rw [he]))]

theorem valueAt_foldIns_mem {α : Type} (ps : List (List Bool × α)) :
    ∀ (t : Node α) (p : List Bool × α), p ∈ ps →
      (∀ p1 ∈ ps, ∀ p2 ∈ ps, p1.1 = p2.1 → p1.2 = p2.2) →
      valueAt (foldIns t ps) p.1 = some p.2 := by
  induction ps with
  | nil => intro t p hp _; cases hp
  | cons q ps ih =>
      intro t p hp huniq
      rw [foldIns_cons]
      rcases List.mem_cons.mp hp with rfl | hmem
      · by_cases hex : ∃ p' ∈ ps, p'.1 = p.1
        · obtain ⟨p', hp', hpath⟩ := hex
          have hval : p'.2 = p.2 :=
            huniq p' (List.mem_cons_of_mem _ hp') p (List.mem_cons_self _ _) hpath
          rw [← hpath, ih _ p' hp'
            (fun p1 h1 p2 h2 => huniq p1 (List.mem_cons_of_mem _ h1) p2 (List.mem_cons_of_mem _ h2)),
            hval]
        · push_neg at hex
          rw [valueAt_foldIns_no_path _ _ _ hex, valueAt_insertB_self]
      · exact ih _ p hmem
          (fun p1 h1 p2 h2 => huniq p1 (List.mem_cons_of_mem _ h1) p2 (List.mem_cons_of_mem _ h2))

theorem insertB_idem {α : Type} (bs : List Bool) :
    ∀ (n : Node α) (v : α), insertB (insertB n bs v) bs v = insertB n bs v := by
  induction bs with
  | nil => intro n v; simp [insertB]
  | cons b bs ih => intro n v; cases b <;> simp [insertB, ih]

theorem insertB_comm {α : Type} (bs1 : List Bool) :
    ∀ (bs2 : List Bool), bs1 ≠ bs2 → ∀ (n : Node α) (v1 v2 : α),
      insertB (insertB n bs1 v1) bs2 v2 = insertB (insertB n bs2 v2) bs1 v1 := by
  induction bs1 with
  | nil =>
      intro bs2 hne n v1 v2
      cases bs2 with
      | nil => exact absurd rfl hne
      | cons b t => cases b <;> simp [insertB]
  | cons a s1 ih =>
      intro bs2 hne n v1 v2
      cases bs2 with
      | nil => cases a <;> simp [insertB]
      | cons b s2 =>
          cases a <;> cases b <;> simp [insertB]
          · exact ih s2 (by simpa using hne) n.left v1 v2
          · exact ih s2 (by simpa using hne) n.right v1 v2

theorem foldIns_push {α : Type} (ps : List (List Bool × α)) :
    ∀ (t : Node α) (x : List Bool × α), (∀ p ∈ ps, p.1 = x.1 → p.2 = x.2) →
      foldIns (insertB t x.1 x.2) ps = insertB (foldIns t ps) x.1 x.2 := by
  induction ps with
  | nil => intro t x _; rfl
  | cons p ps ih =>
      intro t x hcons
      rw [foldIns_cons, foldIns_cons]
      have hswap : insertB (insertB t x.1 x.2) p.1 p.2 = insertB (insertB t p.1 p.2) x.1 x.2 := by
        by_cases hp : p.1 = x.1
        · have hv : p.2 = x.2 := hcons p (List.mem_cons_self _ _) hp
          rw [hp, hv, insertB_idem]
        · exact insertB_comm x.1 p.1 (fun he => hp he.symm) t x.2 p.2
      rw [hswap]
      exact ih _ x (fun p' hp' => hcons p' (List.mem_cons_of_mem _ hp'))

theorem foldIns_twice {α : Type} (ps : List (List Bool × α)) :
    ∀ (t : Node α), (∀ p1 ∈ ps, ∀ p2 ∈ ps, p1.1 = p2.1 → p1.2 = p2.2) →
      foldIns (foldIns t ps) ps = foldIns t ps := by
  induction ps with
  | nil => intro t _; rfl
  | cons p ps ih =>
      intro t huniq
      have hrestrict : ∀ p1 ∈ ps, ∀ p2 ∈ ps, p1.1 = p2.1 → p1.2 = p2.2 :=
        fun p1 h1 p2 h2 => huniq p1 (List.mem_cons_of_mem _ h1) p2 (List.mem_cons_of_mem _ h2)
      have hpcons : ∀ p' ∈ ps, p'.1 = p.1 → p'.2 = p.2 :=
        fun p' hp' => huniq p' (List.mem_cons_of_mem _ hp') p (List.mem_cons_self _ _)
      rw [foldIns_cons, foldIns_cons]
      have h1 : insertB (foldIns (insertB t p.1 p.2) ps) p.1 p.2
          = foldIns (insertB t p.1 p.2) ps := by
        rw [← foldIns_push ps (insertB t p.1 p.2) p hpcons, insertB_idem]
      rw [h1]
      exact ih _ hrestrict

/-! ## CIDR paths and coverage -/

theorem pathOfC_length (q : Cidr) (h2 : q.2 ≤ 32) : (pathOfC q).length = q.2 := by
  simp [pathOfC, toBits_length]
  omega

theorem pathOfC_eq_toBits (q : Cidr) (h2 : q.2 ≤ 32) :
    pathOfC q = toBits q.2 (q.1 / 2 ^ (32 - q.2)) :=
  take_toBits q.2 32 q.1 h2

theorem div_lt_two_pow (x L : Nat) (hx : x < 2 ^ 32) (hL : L ≤ 32) :
    x / 2 ^ (32 - L) < 2 ^ L := by
  have hpos : 0 < (2 : Nat) ^ (32 - L) := Nat.pos_pow_of_pos _ (by norm_num)
  rw [Nat.div_lt_iff_lt_mul hpos]
  calc x < 2 ^ 32 := hx
    _ = 2 ^ L * 2 ^ (32 - L) := by rw [← pow_add]; congr 1; omega

theorem pathOfC_inj (q r : Cidr) (hq : NormalCidr q) (hr : NormalCidr r)
    (h : pathOfC q = pathOfC r) : q = r := by
  obtain ⟨hq1, hq2, hq3⟩ := hq
  obtain ⟨hr1, hr2, hr3⟩ := hr
  have hlen : q.2 = r.2 := by
    have := congrArg List.length h
    rwa [pathOfC_length q hq2, pathOfC_length r hr2] at this
  rw [pathOfC_eq_toBits q hq2, pathOfC_eq_toBits r hr2, hlen] at h
  have hdiv : q.1 / 2 ^ (32 - r.2) = r.1 / 2 ^ (32 - r.2) :=
    toBits_inj r.2 _ _ (hlen ▸ div_lt_two_pow q.1 q.2 hq1 hq2)
      (div_lt_two_pow r.1 r.2 hr1 hr2) h
  have hfst : q.1 = r.1 := by
    have hqc : q.1 / 2 ^ (32 - r.2) * 2 ^ (32 - r.2) = q.1 :=
      Nat.div_mul_cancel (Nat.dvd_of_mod_eq_zero (hlen ▸ hq3))
    have hrc : r.1 / 2 ^ (32 - r.2) * 2 ^ (32 - r.2) = r.1 :=
      Nat.div_mul_cancel (Nat.dvd_of_mod_eq_zero hr3)
    rw [← hqc, ← hrc, hdiv]
  exact Prod.ext hfst hlen

theorem covers_iff_div (q : Cidr) (a : Nat) (hq : NormalCidr q) :
    covers q a ↔ a / 2 ^ (32 - q.2) = q.1 / 2 ^ (32 - q.2) := by
  obtain ⟨hq1, hq2, hq3⟩ := hq
  have hpos : 0 < (2 : Nat) ^ (32 - q.2) := Nat.pos_pow_of_pos _ (by norm_num)
  have hdvd : 2 ^ (32 - q.2) ∣ q.1 := Nat.dvd_of_mod_eq_zero hq3
  have hid : q.1 / 2 ^ (32 - q.2) * 2 ^ (32 - q.2) = q.1 := Nat.div_mul_cancel hdvd
  constructor
  · rintro ⟨h1, h2⟩
    refine Nat.div_eq_of_lt_le (by rw [hid]; exact h1) ?_
    rw [Nat.succ_mul, hid]
    exact h2
  · intro hdiv
    constructor
    · calc q.1 = a / 2 ^ (32 - q.2) * 2 ^ (32 - q.2) := by rw [hdiv, hid]
        _ ≤ a := Nat.div_mul_le_self a _
    · have hmod := Nat.div_add_mod a (2 ^ (32 - q.2))
      have hlt : a % 2 ^ (32 - q.2) < 2 ^ (32 - q.2) := Nat.mod_lt a hpos
      have hq1' : 2 ^ (32 - q.2) * (a / 2 ^ (32 - q.2)) = q.1 := by
        rw [hdiv, Nat.mul_comm, hid]
      omega

theorem covers_iff_take (q : Cidr) (a : Nat) (hq : NormalCidr q) (ha : a < 2 ^ 32) :
    covers q a ↔ (toBits 32 a).take q.2 = pathOfC q := by
  rw [covers_iff_div q a hq, pathOfC_eq_toBits q hq.2.1,
    take_toBits q.2 32 a hq.2.1]
  constructor
  · intro h; rw [h]
  · intro h
    exact toBits_inj q.2 _ _ (div_lt_two_pow a q.2 ha hq.2.1)
      (div_lt_two_pow q.1 q.2 hq.1 hq.2.1) h

/-! ## The cache operations through the bit-list trie -/

theorem valueAt_new {α : Type} (bs : List Bool) : valueAt (treeNew : Node α) bs = none := by
  cases bs with
  | nil => rfl
  | cons b t => cases b <;> simp [treeNew, Node.new, valueAt, valueAt_nil, Node.left, Node.right]

theorem deepVal_new {α : Type} (bs : List Bool) : deepVal (treeNew : Node α) bs = none := by
  cases bs with
  | nil => rfl
  | cons b t => cases b <;> simp [treeNew, Node.new, deepVal]

theorem longestMatch_eq_deepVal (t : Node Cidr) (a : Nat) :
    longestMatch t a = deepVal t (toBits 32 a) := by
  unfold longestMatch Node.find
  rw [maskOfLen_32, find_toBits 32 (by omega) 32 (by omega) t a none,
    List.take_of_length_le (by simp [toBits_length]), findB_eq_deepVal, Option.or_none]

theorem cacheInsert_eq (t : Node Cidr) (q : Cidr) (hq : NormalCidr q) :
    cacheInsert t q = insertB t (pathOfC q) q := by
  unfold cacheInsert addCidrVal
  rw [insert_toBits q.2 hq.2.1 32 hq.2.1 t q.1 (q.1, q.2)]
  rfl

theorem foldC_eq (S : List Cidr) : ∀ (t : Node Cidr), (∀ q ∈ S, NormalCidr q) →
    S.foldl cacheInsert t = foldIns t (S.map (fun q => (pathOfC q, q))) := by
  induction S with
  | nil => intro t _; rfl
  | cons q S ih =>
      intro t hS
      rw [List.foldl_cons, List.map_cons, foldIns_cons,
        ← cacheInsert_eq t q (hS q (List.mem_cons_self _ _))]
      exact ih _ (fun r hr => hS r (List.mem_cons_of_mem _ hr))

theorem mapPS_uniq (S : List Cidr) (hS : ∀ q ∈ S, NormalCidr q) :
    ∀ p1 ∈ S.map (fun q => (pathOfC q, q)), ∀ p2 ∈ S.map (fun q => (pathOfC q, q)),
      p1.1 = p2.1 → p1.2 = p2.2 := by
  intro p1 h1 p2 h2 hpath
  obtain ⟨q1, hq1, rfl⟩ := List.mem_map.mp h1
  obtain ⟨q2, hq2, rfl⟩ := List.mem_map.mp h2
  simpa using pathOfC_inj q1 q2 (hS q1 hq1) (hS q2 hq2) (by simpa using hpath)

/-! ## C1: longest-prefix-match correctness -/

/-- C1: after building the cache from the normal-form CIDR set `S`, the
spec-modelled `longest_match` (driven by `Node::_find` from cache.rs)
returns the covering entry of greatest mask length, `none` exactly when no
entry of `S` covers the address, and the empty tree always answers
`none`. -/
theorem c1_longest_match (S : List Cidr) (hS : ∀ q ∈ S, NormalCidr q)
    (a : Nat) (ha : a < 2 ^ 32) :
    longestMatch treeNew a = none
    ∧ (∀ r, longestMatch (buildTree S) a = some r →
        r ∈ S ∧ covers r a ∧ ∀ q ∈ S, covers q a → q.2 ≤ r.2)
    ∧ ((∃ q ∈ S, covers q a) → (longestMatch (buildTree S) a).isSome = true)
    ∧ ((∀ q ∈ S, ¬ covers q a) → longestMatch (buildTree S) a = none) := by
  have hbuild : buildTree S = foldIns treeNew (S.map (fun q => (pathOfC q, q))) := by
    unfold buildTree
    exact foldC_eq S treeNew hS
  have huniq := mapPS_uniq S hS
  have hlen : (toBits 32 a).length = 32 := toBits_length _ _
  have hmem : ∀ q ∈ S, valueAt (buildTree S) (pathOfC q) = some q := by
    intro q hq
    rw [hbuild]
    exact valueAt_foldIns_mem _ treeNew (pathOfC q, q)
      (List.mem_map.mpr ⟨q, hq, rfl⟩) huniq
  -- the main characterisation of a `some` answer
  have hsome : ∀ r, longestMatch (buildTree S) a = some r →
      r ∈ S ∧ covers r a ∧ ∀ q ∈ S, covers q a → q.2 ≤ r.2 := by
    intro r hr
    rw [longestMatch_eq_deepVal] at hr
    obtain ⟨j, hj, hval, hmax⟩ := deepVal_eq_some _ _ _ hr
    rw [hbuild] at hval
    rcases valueAt_foldIns_of_some _ treeNew _ r hval with hex | hnew
    · obtain ⟨p, hp, hp1, hp2⟩ := hex
      obtain ⟨q, hqS, rfl⟩ := List.mem_map.mp hp
      simp only at hp1 hp2
      subst hp2
      have hjr : j = q.2 := by
        have hlp := congrArg List.length hp1
        rw [pathOfC_length q (hS q hqS).2.1, List.length_take, hlen] at hlp
        omega
      have hcov : covers q a := by
        rw [covers_iff_take q a (hS q hqS) ha, ← hjr]
        exact hp1.symm
      refine ⟨hqS, hcov, ?_⟩
      intro q' hq' hcov'
      by_contra hgt
      push_neg at hgt
      have hnone : valueAt (buildTree S) ((toBits 32 a).take q'.2) = none :=
        hmax q'.2 (by omega) (by rw [hlen]; exact (hS q' hq').2.1)
      rw [(covers_iff_take q' a (hS q' hq') ha).mp hcov', hmem q' hq'] at hnone
      cases hnone
    · rw [valueAt_new] at hnew
      cases hnew
  refine ⟨?_, hsome, ?_, ?_⟩
  · rw [longestMatch_eq_deepVal, deepVal_new]
  · rintro ⟨q, hq, hcov⟩
    cases hopt : longestMatch (buildTree S) a with
    | some r => rfl
    | none =>
        rw [longestMatch_eq_deepVal] at hopt
        have := deepVal_eq_none _ _ hopt q.2 (by rw [hlen]; exact (hS q hq).2.1)
        rw [(covers_iff_take q a (hS q hq) ha).mp hcov, hmem q hq] at this
        cases this
  · intro hnone
    cases hopt : longestMatch (buildTree S) a with
    | none => rfl
    | some r =>
        obtain ⟨hrS, hcov, _⟩ := hsome r hopt
        exact absurd hcov (hnone r hrS)

theorem c1_longest_match_witness :
    ((∀ q ∈ [((ipv4 10 0 0 0 : Nat), (8 : Nat)), (ipv4 10 1 0 0, 16)], NormalCidr q)
      ∧ ipv4 10 1 2 3 < 2 ^ 32) ∧
    (longestMatch treeNew (ipv4 10 1 2 3) = none
    ∧ (∀ r, longestMatch (buildTree [(ipv4 10 0 0 0, 8), (ipv4 10 1 0 0, 16)]) (ipv4 10 1 2 3) = some r →
        r ∈ [((ipv4 10 0 0 0 : Nat), (8 : Nat)), (ipv4 10 1 0 0, 16)] ∧ covers r (ipv4 10 1 2 3)
          ∧ ∀ q ∈ [((ipv4 10 0 0 0 : Nat), (8 : Nat)), (ipv4 10 1 0 0, 16)],
              covers q (ipv4 10 1 2 3) → q.2 ≤ r.2)
    ∧ ((∃ q ∈ [((ipv4 10 0 0 0 : Nat), (8 : Nat)), (ipv4 10 1 0 0, 16)], covers q (ipv4 10 1 2 3)) →
        (longestMatch (buildTree [(ipv4 10 0 0 0, 8), (ipv4 10 1 0 0, 16)]) (ipv4 10 1 2 3)).isSome = true)
    ∧ ((∀ q ∈ [((ipv4 10 0 0 0 : Nat), (8 : Nat)), (ipv4 10 1 0 0, 16)], ¬ covers q (ipv4 10 1 2 3)) →
        longestMatch (buildTree [(ipv4 10 0 0 0, 8), (ipv4 10 1 0 0, 16)]) (ipv4 10 1 2 3) = none)) :=
  ⟨⟨by decide, by decide⟩,
    c1_longest_match [(ipv4 10 0 0 0, 8), (ipv4 10 1 0 0, 16)] (by decide)
      (ipv4 10 1 2 3) (by decide)⟩

/-! ## C9: idempotence -/

theorem insert_self_idem {α : Type} (fuel : Nat) : ∀ (n : Node α) (key mask : Nat) (v : α),
    (n.insert key mask v fuel).insert key mask v fuel = n.insert key mask v fuel := by
  induction fuel with
  | zero =>
      intro n key mask v
      by_cases hm : mask = 0 <;> simp [Node.insert, hm]
  | succ f ih =>
      intro n key mask v
      by_cases hm : mask = 0
      · simp [Node.insert, hm]
      · cases hb : key.testBit 31 <;> simp [Node.insert, hm, hb, ih]

theorem temper_map_ok (outs : List (List Cidr)) :
    ∀ (t : Node Cidr), temper t (outs.map Except.ok) = (outs.foldl insertSource t, none) := by
  induction outs with
  | nil => intro t; rfl
  | cons cs outs ih => intro t; simpa [temper] using ih (insertSource t cs)

theorem foldl_insertSource_flatten (outs : List (List Cidr)) (t : Node Cidr) :
    outs.foldl insertSource t = (outs.flatten).foldl cacheInsert t := by
  rw [List.foldl_flatten]
  rfl

/-- C9: duplicate insertion leaves the tree literally unchanged, and
tempering twice with identical Fetcher outputs answers `longest_match`
identically to tempering once (indeed the trees are equal). -/
theorem c9_idempotence (t : Node Cidr) (q : Cidr) (outs : List (List Cidr))
    (hnorm : ∀ cs ∈ outs, ∀ x ∈ cs, NormalCidr x) :
    cacheInsert (cacheInsert t q) q = cacheInsert t q
    ∧ ∀ a, longestMatch (temper (temper t (outs.map .ok)).1 (outs.map .ok)).1 a
        = longestMatch (temper t (outs.map .ok)).1 a := by
  constructor
  · unfold cacheInsert addCidrVal
    exact insert_self_idem 32 t q.1 (maskOfLen q.2) (q.1, q.2)
  · have hS : ∀ x ∈ outs.flatten, NormalCidr x := by
      intro x hx
      obtain ⟨cs, hcs, hxcs⟩ := List.mem_flatten.mp hx
      exact hnorm cs hcs x hxcs
    have htrees : (temper (temper t (outs.map .ok)).1 (outs.map .ok)).1
        = (temper t (outs.map .ok)).1 := by
      rw [temper_map_ok outs t]
      rw [temper_map_ok outs (outs.foldl insertSource t)]
      simp only
      rw [foldl_insertSource_flatten, foldl_insertSource_flatten,
        foldC_eq _ _ hS, foldC_eq _ _ hS]
      exact foldIns_twice _ _ (mapPS_uniq _ hS)
    intro a
    rw [htrees]

theorem c9_idempotence_witness :
    (∀ cs ∈ [[((ipv4 10 0 0 0 : Nat), (8 : Nat))]], ∀ x ∈ cs, NormalCidr x) ∧
    (cacheInsert (cacheInsert treeNew (ipv4 10 0 0 0, 8)) (ipv4 10 0 0 0, 8)
        = cacheInsert treeNew (ipv4 10 0 0 0, 8)
      ∧ ∀ a, longestMatch
            (temper (temper treeNew ([[((ipv4 10 0 0 0 : Nat), (8 : Nat))]].map .ok)).1
              ([[((ipv4 10 0 0 0 : Nat), (8 : Nat))]].map .ok)).1 a
          = longestMatch (temper treeNew ([[((ipv4 10 0 0 0 : Nat), (8 : Nat))]].map .ok)).1 a) :=
  ⟨by decide,
    c9_idempotence treeNew (ipv4 10 0 0 0, 8) [[(ipv4 10 0 0 0, 8)]] (by decide)⟩

/-! ## Codec round-trip lemmas -/

theorem parseCString_append (s rest : List Nat) (hs : 0 ∉ s) :
    parseCString (s ++ 0 :: rest) = some (s, rest) := by
  induction s with
  | nil => simp [parseCString]
  | cons b s ih =>
      have hb : ¬ b = 0 := fun h => hs (by simp [h])
      have hs' : 0 ∉ s := fun h => hs (List.mem_cons_of_mem _ h)
      simp [parseCString, hb, ih hs']

theorem parseLe32_le32 (n : Nat) (hn : n < 2 ^ 32) (rest : List Nat) :
    parseLe32 (le32 n ++ rest) = some (n, rest) := by
  simp only [le32, List.cons_append, List.nil_append, parseLe32, Option.some.injEq,
    Prod.mk.injEq, and_true]
  omega

theorem parseMetaPairs_metaBytes (ps : List (List Nat × List Nat)) (rest : List Nat)
    (hp : ∀ p ∈ ps, 0 ∉ p.1 ∧ 0 ∉ p.2) :
    parseMetaPairs ps.length (metaBytes ps ++ rest) = some (ps, rest) := by
  induction ps with
  | nil => rfl
  | cons p ps ih =>
      have h1 : 0 ∉ p.1 := (hp p (List.mem_cons_self _ _)).1
      have h2 : 0 ∉ p.2 := (hp p (List.mem_cons_self _ _)).2
      have hrec := ih (fun q hq => hp q (List.mem_cons_of_mem _ hq))
      simp only [metaBytes, List.length_cons, parseMetaPairs, parseMetaPair,
        List.append_assoc, List.cons_append, List.singleton_append, List.nil_append]
      rw [parseCString_append p.1 _ h1]
      simp only [Option.some_bind]
      rw [parseCString_append p.2 _ h2]
      simp [hrec]

theorem parseMetaPairs_metaBytes_count (n : Nat) (ps : List (List Nat × List Nat))
    (hn : n = ps.length) (hp : ∀ p ∈ ps, 0 ∉ p.1 ∧ 0 ∉ p.2) :
    parseMetaPairs n (metaBytes ps) = some (ps, []) := by
  have h := parseMetaPairs_metaBytes ps [] hp
  rw [List.append_nil] at h
  rw [hn]
  exact h

/-- The wire octets of the `u32` of `a.b.c.d` come out least significant
octet first, i.e. in the order `d, c, b, a`. -/
theorem le32_ipv4 (a b c d : Nat) (ha : a < 256) (hb : b < 256) (hc : c < 256)
    (hd : d < 256) : le32 (ipv4 a b c d) = [d, c, b, a] := by
  simp only [le32, ipv4, List.cons.injEq, and_true]
  refine ⟨?_, ?_, ?_, ?_⟩ <;> omega

/-! ## C7: wire round-trip -/

/-- C7: for every constructible message of each wire variant 0–5, decoding
the encoding yields the message again (and consumes the whole frame). -/
theorem c7_decode_encode (m : Msg) (hm : MsgWF m) :
    decodeMsg (encodeMsg m) = some (m, []) := by
  cases m with
  | established e =>
      obtain ⟨h1, h2, h3, h4, h5⟩ := hm
      have hdr : decodeMsg (encodeMsg (.established e))
          = (EstablishedM.parse
              (le32 e.rate_limit ++ (le32 e.tree_size ++ (le32 e.cache_ttl ++
                (le32 e.peer_ttl ++ (e.banner ++ [0])))))).map
              (fun p => (Msg.established p.1, p.2)) := rfl
      rw [hdr]
      simp [EstablishedM.parse, parseLe32_le32 _ h1, parseLe32_le32 _ h2,
        parseLe32_le32 _ h3, parseLe32_le32 _ h4, parseCString_append _ _ h5]
  | identify i =>
      have h5 : 0 ∉ i.identification := hm
      have hdr : decodeMsg (encodeMsg (.identify i))
          = (IdentifyM.parse (i.identification ++ [0])).map
              (fun p => (Msg.identify p.1, p.2)) := rfl
      rw [hdr]
      simp [IdentifyM.parse, parseCString_append _ _ h5]
  | request r =>
      obtain ⟨h1, h2, h3, h4⟩ := hm
      have hdr : decodeMsg (encodeMsg (.request r))
          = (RequestM.parse (le32 r.ip_address ++ r.meta_count :: metaBytes r.meta)).map
              (fun p => (Msg.request p.1, p.2)) := rfl
      rw [hdr]
      have hmp := parseMetaPairs_metaBytes_count r.meta_count r.meta h3 h4
      simp [RequestM.parse, parseLe32_le32 _ h1, hmp]
  | responseOkFound f =>
      obtain ⟨h1, h2, h3⟩ := hm
      have hdr : decodeMsg (encodeMsg (.responseOkFound f))
          = (ResponseOkFoundM.parse
              (le32 f.ip_address ++ (le32 f.pfx ++ le32 f.mask_len))).map
              (fun p => (Msg.responseOkFound p.1, p.2)) := rfl
      rw [hdr]
      have h3' := parseLe32_le32 _ h3 []
      rw [List.append_nil] at h3'
      simp [ResponseOkFoundM.parse, parseLe32_le32 _ h1, parseLe32_le32 _ h2, h3']
  | responseOkNotFound nf =>
      have h1 : nf.ip_address < 2 ^ 32 := hm
      have hdr : decodeMsg (encodeMsg (.responseOkNotFound nf))
          = (ResponseOkNotFoundM.parse (le32 nf.ip_address)).map
              (fun p => (Msg.responseOkNotFound p.1, p.2)) := rfl
      rw [hdr]
      have h1' := parseLe32_le32 _ h1 []
      rw [List.append_nil] at h1'
      simp [ResponseOkNotFoundM.parse, h1']
  | responseError er =>
      obtain ⟨h1, h2⟩ := hm
      have hdr : decodeMsg (encodeMsg (.responseError er))
          = (ResponseErrorM.parse (er.code :: (er.message ++ [0]))).map
              (fun p => (Msg.responseError p.1, p.2)) := rfl
      rw [hdr]
      simp [ResponseErrorM.parse, parseCString_append _ _ h2]

theorem c7_decode_encode_witness :
    MsgWF (.request ⟨Lrthrome.ipv4 10 1 2 3, 1, [([102, 111, 111], [98, 97, 114])]⟩) ∧
    decodeMsg (encodeMsg (.request ⟨Lrthrome.ipv4 10 1 2 3, 1, [([102, 111, 111], [98, 97, 114])]⟩))
      = some (.request ⟨Lrthrome.ipv4 10 1 2 3, 1, [([102, 111, 111], [98, 97, 114])]⟩, []) :=
  ⟨by decide, c7_decode_encode _ (by decide)⟩

/-! ## C6: wire octet order -/

/-- C6 counterexample: the body bytes `0a 01 02 03` do not denote
`10.1.2.3`; `Request::parse` reads them little-endian, producing the `u32`
of `3.2.1.10`. -/
theorem c6_counterexample :
    decodeMsg [1, 2, 0x0a, 0x01, 0x02, 0x03, 0] =
      some (.request ⟨ipv4 3 2 1 10, 0, []⟩, [])
    ∧ ipv4 3 2 1 10 ≠ ipv4 10 1 2 3 := by decide

/-- C6 amended: the four octets of `ip` / `prefix` appear on the wire least
significant first, i.e. in the order `d, c, b, a` for the address
`a.b.c.d`; a Request body for `a.b.c.d` is the bytes `d c b a` followed by
the meta count, and the found-response carries its prefix in the same
reversed order. -/
theorem c6_wire_order (a b c d p l : Nat) (ha : a < 256) (hb : b < 256)
    (hc : c < 256) (hd : d < 256) :
    ResponseOkFoundM.toBytes ⟨ipv4 a b c d, p, l⟩
      = 1 :: 3 :: ([d, c, b, a] ++ le32 p ++ le32 l)
    ∧ ResponseOkNotFoundM.toBytes ⟨ipv4 a b c d⟩ = 1 :: 4 :: [d, c, b, a]
    ∧ RequestM.parse ([d, c, b, a] ++ [0]) = some (⟨ipv4 a b c d, 0, []⟩, []) := by
  have hle := le32_ipv4 a b c d ha hb hc hd
  refine ⟨?_, ?_, ?_⟩
  · simp [ResponseOkFoundM.toBytes, hle, Variant.code, protocolVersion]
  · simp [ResponseOkNotFoundM.toBytes, hle, Variant.code, protocolVersion]
  · have hip : d + 256 * (c + 256 * (b + 256 * a)) = ipv4 a b c d := by unfold ipv4; omega
    simp [RequestM.parse, parseLe32, parseMetaPairs, hip]

/-! ## C2: failing temper leaves earlier insertions behind -/

/-- C2 counterexample: the first source inserts `10.0.0.0/8`, the second
source fails; `temper` returns the error, but `longest_match 10.0.0.1`
changed from `none` to `some` — the tree is not as it was before the
temper. -/
theorem c2_counterexample :
    (temper treeNew [.ok [(ipv4 10 0 0 0, 8)], .error .otherError]).2
      = some .otherError
    ∧ longestMatch (temper treeNew [.ok [(ipv4 10 0 0 0, 8)], .error .otherError]).1
        (ipv4 10 0 0 1) = some (ipv4 10 0 0 0, 8)
    ∧ longestMatch treeNew (ipv4 10 0 0 1) = none := by decide

/-- C2 amended: when a Fetcher fails, `temper` aborts with that error and
the live tree is the pre-temper tree with exactly the CIDRs of the sources
preceding the failing one inserted; in particular a failure of the first
source leaves the tree unchanged. -/
theorem c2_aborted_temper (t : Node Cidr) (pre : List (List Cidr))
    (e : LrthromeError) (rest : List (Except LrthromeError (List Cidr))) :
    temper t (pre.map Except.ok ++ .error e :: rest)
      = (pre.foldl insertSource t, some e) := by
  induction pre generalizing t with
  | nil => rfl
  | cons cs pre ih => simpa [temper] using ih (insertSource t cs)

/-! ## C3: temper never empties the tree -/

/-- C3 evaluated at the failing input: a first completed temper inserts
`10.0.0.0/8`; a second completed temper whose only Fetcher output is
`192.168.0.0/16` still answers `10.1.2.3 ∈ 10.0.0.0/8`, although that
prefix is in no Fetcher output of the second refresh. -/
theorem c3_stale_after_second_temper :
    (temper treeNew [.ok [(ipv4 10 0 0 0, 8)]]).2 = none
    ∧ (temper (temper treeNew [.ok [(ipv4 10 0 0 0, 8)]]).1
        [.ok [(ipv4 192 168 0 0, 16)]]).2 = none
    ∧ longestMatch
        (temper (temper treeNew [.ok [(ipv4 10 0 0 0, 8)]]).1
          [.ok [(ipv4 192 168 0 0, 16)]]).1 (ipv4 10 1 2 3)
        = some (ipv4 10 0 0 0, 8)
    ∧ ¬ ((ipv4 10 0 0 0, 8) ∈ [(ipv4 192 168 0 0, 16)]) := by decide

/-! ## C4: what terminates the event loop -/

/-- C4 counterexample: a tempering failure on `CacheTick` does not leave
processing running — the event loop exits with the error (the `?` in
`Message::CacheTick => self.temper_cache().await?`). -/
theorem c4_counterexample :
    loopRun 0 ⟨[], [], 0, treeNew, [.error .otherError], 15⟩ [.cacheTick]
      = .error .otherError := by decide

/-- C4 amended: per-peer errors (malformed payload, version mismatch,
invalid variant, rate limit) never terminate the event loop — every
`PeerFrame` is dispatched to `.ok` — but a tempering failure on a
`CacheTick` propagates out of the loop as that error. -/
theorem c4_loop_exit (now : Nat) (st : ServerSt) (addr : SockAddr)
    (buf : List Nat) (e : LrthromeError)
    (h : (temper st.tree st.sources).2 = some e) :
    (dispatch now st (.peerFrame addr buf)).isOk = true
    ∧ dispatch now st .cacheTick = .error e := by
  constructor
  · simp only [dispatch]
    rcases hpf : processFrame now st addr buf with ⟨st', err⟩
    cases err with
    | none => rfl
    | some e' =>
        cases hlp : lookupPeer st'.peers addr <;> simp [hlp, Except.isOk, Except.toBool]
  · simp only [dispatch]
    rcases ht : temper st.tree st.sources with ⟨t', err⟩
    rw [ht] at h
    simp only at h
    rw [h]

theorem c4_loop_exit_witness :
    ((temper (treeNew : Node Cidr) [.error .otherError]).2 = some .otherError) ∧
    ((dispatch 0 ⟨[], [], 0, treeNew, [.error .otherError], 15⟩
        (.peerFrame (0, 0) [])).isOk = true
      ∧ dispatch 0 ⟨[], [], 0, treeNew, [.error .otherError], 15⟩ .cacheTick
          = .error .otherError) :=
  ⟨by decide, c4_loop_exit 0 ⟨[], [], 0, treeNew, [.error .otherError], 15⟩
    (0, 0) [] .otherError (by decide)⟩

/-! ## C5: what a version-mismatch frame actually gets back -/

/-- C5 evaluated at the failing input `64 01`: `process_frame` collapses the
`Header::parse` failure into `MalformedPayload`, so the registered peer is
sent `ResponseError` with code 0 and message `Malformed payload` (bytes
below) and is shut down — not code 2 with the version-mismatch message. -/
theorem c5_version_mismatch_reply :
    dispatch 0 ⟨[((9, 1), ⟨0, false, []⟩)], [], 0, treeNew, [], 15⟩
        (.peerFrame (9, 1) [0x64, 0x01])
      = .ok ⟨[((9, 1), ⟨0, true,
          [[1, 5, 0, 77, 97, 108, 102, 111, 114, 109, 101, 100, 32,
            112, 97, 121, 108, 111, 97, 100, 0]]⟩)], [], 0, treeNew, [], 15⟩
    ∧ LrthromeError.malformedPayload.code = 0
    ∧ (LrthromeError.versionMismatch 1 100).code = 2
    ∧ strBytes (LrthromeError.versionMismatch 1 100).message
        ≠ [77, 97, 108, 102, 111, 114, 109, 101, 100, 32,
           112, 97, 121, 108, 111, 97, 100] := by decide

/-! ## C8: peer-task exit conditions -/

/-- C8 counterexample: after an outbound send error the peer task does not
exit and sends nothing — it only logs and keeps looping. -/
theorem c8_counterexample :
    peerRun [.outboundRecv false] = ([], false)
    ∧ peerRun [.outboundRecv false] ≠ ([.disconnectedMsg], true) := by decide

/-- C8 amended: the peer task exits exactly when its run contains a
shutdown signal, an inbound stream end, or an inbound stream error (an
outbound send error is only logged); when it exits, it has sent
`PeerDisconnected` exactly once, and that message is the last one sent. -/
theorem c8_exit_behaviour (evs : List PeerEvent) :
    (peerRun evs).2 = evs.any isExitEvent
    ∧ (peerRun evs).1.count .disconnectedMsg
        = (if evs.any isExitEvent then 1 else 0)
    ∧ ∃ l, (peerRun evs).1
          = l ++ (if evs.any isExitEvent then [.disconnectedMsg] else [])
        ∧ .disconnectedMsg ∉ l := by
  induction evs with
  | nil => exact ⟨rfl, rfl, [], rfl, by simp⟩
  | cons e rest ih =>
      obtain ⟨ih1, ih2, l, ihl, ihnl⟩ := ih
      cases e with
      | shutdownFired => exact ⟨rfl, rfl, [], rfl, by simp⟩
      | inboundError => exact ⟨rfl, rfl, [], rfl, by simp⟩
      | inboundEnd => exact ⟨rfl, rfl, [], rfl, by simp⟩
      | outboundRecv ok => exact ⟨ih1, ih2, l, ihl, ihnl⟩
      | inboundFrame buf =>
          refine ⟨ih1, ?_, .frameMsg buf :: l, ?_, ?_⟩
          · show List.count _ (PeerMsg.frameMsg buf :: (peerRun rest).1) = _
            rw [List.count_cons, if_neg (by simp), Nat.add_zero]
            exact ih2
          · show PeerMsg.frameMsg buf :: (peerRun rest).1 = _
            rw [ihl]
            rfl
          · simp [ihnl]

/-! ## C10: a Request from an unregistered peer is a no-op -/

/-- C10: a well-formed Request frame whose source address is not in the
peers map is processed successfully with no effect: no rate-limit check,
no response, no state change. -/
theorem c10_unregistered_peer_noop (now : Nat) (st : ServerSt) (addr : SockAddr)
    (frame rest : List Nat)
    (hh : parseHeader frame = some (.request, rest))
    (hr : (RequestM.parse rest).isSome = true)
    (hp : lookupPeer st.peers addr = none) :
    processFrame now st addr frame = (st, none) := by
  simp only [processFrame, hh]
  obtain ⟨pr, hpr⟩ := Option.isSome_iff_exists.mp hr
  obtain ⟨req, rest2⟩ := pr
  rw [hpr, hp]

theorem c10_unregistered_peer_noop_witness :
    (parseHeader [1, 2, 0, 0, 0, 0, 0] = some (.request, [0, 0, 0, 0, 0])
      ∧ (RequestM.parse [0, 0, 0, 0, 0]).isSome = true
      ∧ lookupPeer ([] : List (SockAddr × PeerRegistry)) (7, 7) = none) ∧
    processFrame 5 ⟨[], [], 0, treeNew, [], 15⟩ (7, 7) [1, 2, 0, 0, 0, 0, 0]
      = (⟨[], [], 0, treeNew, [], 15⟩, none) :=
  ⟨⟨by decide, by decide, by decide⟩,
    c10_unregistered_peer_noop 5 ⟨[], [], 0, treeNew, [], 15⟩ (7, 7)
      [1, 2, 0, 0, 0, 0, 0] [0, 0, 0, 0, 0] (by decide) (by decide) (by decide)⟩

theorem c6_wire_order_witness :
    ((10 : Nat) < 256 ∧ (1 : Nat) < 256 ∧ (2 : Nat) < 256 ∧ (3 : Nat) < 256) ∧
    (ResponseOkFoundM.toBytes ⟨ipv4 10 1 2 3, ipv4 10 0 0 0, 8⟩
        = 1 :: 3 :: ([3, 2, 1, 10] ++ le32 (ipv4 10 0 0 0) ++ le32 8)
      ∧ ResponseOkNotFoundM.toBytes ⟨ipv4 10 1 2 3⟩ = 1 :: 4 :: [3, 2, 1, 10]
      ∧ RequestM.parse ([3, 2, 1, 10] ++ [0]) = some (⟨ipv4 10 1 2 3, 0, []⟩, [])) :=
  ⟨⟨by decide, by decide, by decide, by decide⟩,
    c6_wire_order 10 1 2 3 (ipv4 10 0 0 0) 8 (by decide) (by decide) (by decide) (by decide)⟩

end Lrthrome
